import Mathlib

/-!
Verification development for the xunused tool (src/main.cpp): a clang-based
whole-program detector of unused functions.  The per-TU classification
(`FunctionDeclMatchHandler::run` / `handleUse` / `finalize`), the global
aggregation table (`AllDecls`, a `std::map<std::string, DefInfo>` keyed by
USR strings), and the final report loop of `main` are embedded as
executable Lean definitions, and the behavioural properties of the tool
are proved as theorems about those definitions.

Modelling conventions:
- A `FuncDecl` value stands for one canonical `clang::FunctionDecl` entity
  (the result of `getCanonicalDecl()`), carrying exactly the attributes the
  tool queries on it.  The pointer identity of the C++ `std::set` keys is
  the `declId` field.
- USR generation (`getUSRForDecl`) can fail; the `usr` field is an
  `Option String` and both aggregation loops skip a decl whose USR is
  missing, as the C++ `continue` does.
- Pattern resolution for template instantiations and member-template
  functions (`getInstantiatedFromMemberFunction`,
  `getTemplateInstantiationPattern`) is collaborator-provided clang
  behaviour; an event carries those lookups as explicit optional fields.
- `std::map<std::string, DefInfo>` is embedded as an association list with
  strictly increasing keys, ordered by `strLtb`, the lexicographic order on
  the character data of a string (the order used by `std::map`).
-/

/-- Lexicographic strict order on character lists, the order underlying
`std::basic_string::operator<` used by the `AllDecls` map. -/
def listLtb : List Char → List Char → Bool
  | [], [] => false
  | [], _ :: _ => true
  | _ :: _, [] => false
  | a :: as, b :: bs =>
    if a < b then true
    else if b < a then false
    else listLtb as bs

/-- Strict order on strings by their character data (models the
`std::string` key order of `std::map<std::string, DefInfo> AllDecls`). -/
def strLtb (a b : String) : Bool := listLtb a.data b.data

/-- One non-defining declaration of a symbol: `struct DeclLoc` in
src/main.cpp (`Filename`, `Line`). -/
structure DeclLoc where
  Filename : String
  Line : Nat
deriving DecidableEq

/-- One entry of `F->redecls()`: whether that redeclaration is the one with
the body (`doesThisDeclarationHaveABody`) and its source location. -/
structure Redecl where
  hasBodyHere : Bool
  Filename : String
  Line : Nat
deriving DecidableEq

/-- A canonical `clang::FunctionDecl` entity, with exactly the attributes
src/main.cpp queries.  `declId` plays the role of the decl pointer used as
the key of the `std::set<const FunctionDecl *>` members `Defs`/`Uses`;
`usr` is the result of `getUSRForDecl` (`none` when USR generation fails);
`name` is `getQualifiedNameAsString()`; `filename`/`line` come from the
source manager at the definition's `getSourceRange().getBegin()`. -/
structure FuncDecl where
  declId : Nat
  usr : Option String
  name : String
  filename : String
  line : Nat
  isWeak : Bool
  hasBody : Bool
  isTemplateInstantiation : Bool
  inSystemHeader : Bool
  writtenInMainFile : Bool
  isMethod : Bool
  isVirtual : Bool
  isPure : Bool
  numOverridden : Nat
  isDestructor : Bool
  isMain : Bool
  hasConstructorAttr : Bool
  redecls : List Redecl
deriving DecidableEq

/-- `struct DefInfo` of src/main.cpp: the value stored per USR in the
global `AllDecls` map. -/
structure DefInfo where
  Definition : Option FuncDecl
  Uses : Nat
  Name : String
  Filename : String
  Line : Nat
  Declarations : List DeclLoc
deriving DecidableEq

/-- `FileManager::makeAbsolutePath`: leave an absolute path unchanged,
otherwise prepend the current working directory. -/
def makeAbsolutePath (cwd p : String) : String :=
  match p.data with
  | [] => cwd ++ "/" ++ p
  | c :: _ => if c = '/' then p else cwd ++ "/" ++ p

/-- A path is absolute when it starts with the path separator. -/
def isAbsolutePath (p : String) : Bool :=
  match p.data with
  | [] => false
  | c :: _ => c = '/'

/-- `getDeclarations` of src/main.cpp: all redeclarations of `F` that are
not the definition, each with its path made absolute. -/
def getDeclarations (cwd : String) (F : FuncDecl) : List DeclLoc :=
  (F.redecls.filter (fun r => !r.hasBodyHere)).map
    (fun r => ⟨makeAbsolutePath cwd r.Filename, r.Line⟩)

/-- The mutable per-TU state of `FunctionDeclMatchHandler`: the members
`std::set<const FunctionDecl *> Defs, Uses`.  The lists are kept
duplicate-free by `insertDecl`, mirroring set insertion keyed by the decl
pointer (`declId`). -/
structure TUState where
  Defs : List FuncDecl
  Uses : List FuncDecl
deriving DecidableEq

/-- `std::set::insert` keyed by decl pointer: no-op when a decl with the
same identity is already present. -/
def insertDecl (F : FuncDecl) (s : List FuncDecl) : List FuncDecl :=
  if s.any (fun g => g.declId == F.declId) then s else s ++ [F]

/-- `std::set_difference` over two decl sets keyed by the same pointer
order: the elements of `a` whose key does not occur in `b`. -/
def setDifference (a b : List FuncDecl) : List FuncDecl :=
  a.filter (fun x => !b.any (fun y => y.declId == x.declId))

/-- The `UnusedDefs` vector computed at the top of
`FunctionDeclMatchHandler::finalize`: `Defs − Uses`, before weak
definitions are discarded. -/
def unusedDefs (tu : TUState) : List FuncDecl :=
  setDifference tu.Defs tu.Uses

/-- The state of `Defs` after `discard_if(Defs, isWeak)` in `finalize`:
all weakly-linked definitions removed. -/
def defsAfterWeakRemoval (tu : TUState) : List FuncDecl :=
  tu.Defs.filter (fun F => !F.isWeak)

/-- The `ExternalUses` vector of `finalize`: `Uses − Defs` computed after
the weak definitions have been discarded from `Defs`. -/
def externalUses (tu : TUState) : List FuncDecl :=
  setDifference tu.Uses (defsAfterWeakRemoval tu)

/-- The `ValueDecl` handed to `handleUse` (via `getDecl` /
`getMemberDecl` / `getConstructor`): whether it is a `FunctionDecl` at
all, the referenced decl, and the clang-provided
`getTemplateInstantiationPattern` lookup for it. -/
structure RefInfo where
  isFunctionDecl : Bool
  decl : FuncDecl
  templatePattern : Option FuncDecl
deriving DecidableEq

/-- `FunctionDeclMatchHandler::handleUse`: ignore non-functions and decls
in system headers; redirect a template instantiation to its pattern;
insert the canonical decl into `Uses`. -/
def handleUse (st : TUState) (d : RefInfo) : TUState :=
  if !d.isFunctionDecl then st
  else if d.decl.inSystemHeader then st
  else
    let FD := if d.decl.isTemplateInstantiation
              then d.templatePattern.getD d.decl
              else d.decl
    ⟨st.Defs, insertDecl FD st.Uses⟩

/-- The `fnDecl` match of `FunctionDeclMatchHandler::run`: the matched
definition together with the clang-provided pattern lookups
(`getInstantiatedFromMemberFunction` on the matched decl, and
`getTemplateInstantiationPattern` for the decl reached after the member
redirect). -/
structure FnDeclEvent where
  matched : FuncDecl
  memberPattern : Option FuncDecl
  templatePattern : Option FuncDecl
deriving DecidableEq

/-- The decl `F` that `run` works with after the two pattern redirects:
`F = Templ` when the decl is instantiated from a member function, then
`F = F->getTemplateInstantiationPattern()` when `F` is a template
instantiation. -/
def resolveFn (e : FnDeclEvent) : FuncDecl :=
  let F1 := e.memberPattern.getD e.matched
  if F1.isTemplateInstantiation then e.templatePattern.getD F1 else F1

/-- The `fnDecl` branch of `FunctionDeclMatchHandler::run`: skip
bodyless (deleted/defaulted) decls, decls in system headers or outside the
TU's main file, overriding non-pure virtual methods, destructors, and
`main`; otherwise insert the canonical decl into `Defs`, and record a
synthetic self-use for `__attribute__((constructor))` functions. -/
def runFnDecl (st : TUState) (e : FnDeclEvent) : TUState :=
  if !e.matched.hasBody then st
  else
    let F := resolveFn e
    if F.inSystemHeader then st
    else if !F.writtenInMainFile then st
    else if F.isMethod && F.isVirtual && !F.isPure && F.numOverridden != 0 then st
    else if F.isMethod && F.isDestructor then st
    else if F.isMain then st
    else
      let st1 : TUState := ⟨insertDecl F st.Defs, st.Uses⟩
      if F.hasConstructorAttr then handleUse st1 ⟨true, F, e.templatePattern⟩ else st1

/-- One AST-matcher callback invocation of `FunctionDeclMatchHandler::run`:
a matched function definition, or a `DeclRefExpr` / `MemberExpr` /
`CXXConstructExpr` reference. -/
inductive MatchEvent where
  | fnDecl (e : FnDeclEvent)
  | declRef (d : RefInfo)
  | memberRef (d : RefInfo)
  | cxxConstructExpr (d : RefInfo)
deriving DecidableEq

/-- Dispatch of `FunctionDeclMatchHandler::run` over the bound node. -/
def runEvent (st : TUState) (ev : MatchEvent) : TUState :=
  match ev with
  | .fnDecl e => runFnDecl st e
  | .declRef d => handleUse st d
  | .memberRef d => handleUse st d
  | .cxxConstructExpr d => handleUse st d

/-- One TU's whole matcher pass (`XUnusedASTConsumer::HandleTranslationUnit`
before `finalize`): fold all match callbacks over the initially empty
handler state. -/
def runTU (evs : List MatchEvent) : TUState :=
  evs.foldl runEvent ⟨[], []⟩

/-- The global table `AllDecls`, a `std::map<std::string, DefInfo>`:
an association list with strictly `strLtb`-increasing keys. -/
def Table := List (String × DefInfo)

/-- Map lookup (`AllDecls.find` / `emplace` hit detection). -/
def lookupMap (u : String) : List (String × DefInfo) → Option DefInfo
  | [] => none
  | kv :: rest => if u = kv.1 then some kv.2 else lookupMap u rest

/-- Sorted-map upsert: `AllDecls.emplace(k, fresh)` followed by the
modification `upd` of an already-present entry. -/
def updateMap (k : String) (fresh : DefInfo) (upd : DefInfo → DefInfo) :
    List (String × DefInfo) → List (String × DefInfo)
  | [] => [(k, fresh)]
  | kv :: rest =>
    if k = kv.1 then (kv.1, upd kv.2) :: rest
    else if strLtb k kv.1 then (k, fresh) :: kv :: rest
    else kv :: updateMap k fresh upd rest

/-- The `DefInfo` value an `UnusedDefs` entry writes for `F`: the code
emplaces `DefInfo{F, 0}` and then (for fresh and existing entries alike)
overwrites `Name`, `Filename`, `Line` and `Declarations` from `F`; an
existing entry keeps its use count and only has `Definition` replaced. -/
def defInfoFor (cwd : String) (F : FuncDecl) (prevUses : Nat) : DefInfo :=
  ⟨some F, prevUses, F.name, F.filename, F.line, getDeclarations cwd F⟩

/-- The `UnusedDefs` loop body of `finalize` for one decl `F`: skip when
USR generation fails; otherwise emplace `DefInfo{F, 0}` and overwrite the
definition metadata, keeping an existing entry's use count. -/
def recordDef (cwd : String) (t : List (String × DefInfo)) (F : FuncDecl) :
    List (String × DefInfo) :=
  match F.usr with
  | none => t
  | some u => updateMap u (defInfoFor cwd F 0) (fun v => defInfoFor cwd F v.Uses) t

/-- The `ExternalUses` loop body of `finalize` for one decl `F`: skip when
USR generation fails; otherwise emplace `DefInfo{nullptr, 1}` or increment
the existing entry's use count. -/
def recordUse (t : List (String × DefInfo)) (F : FuncDecl) :
    List (String × DefInfo) :=
  match F.usr with
  | none => t
  | some u => updateMap u ⟨none, 1, "", "", 0, []⟩ (fun v => ⟨v.Definition, v.Uses + 1, v.Name, v.Filename, v.Line, v.Declarations⟩) t

/-- `FunctionDeclMatchHandler::finalize`: under the global mutex, merge one
TU's classifier result into `AllDecls` — first every `UnusedDefs` entry,
then every `ExternalUses` entry. -/
def finalize (cwd : String) (tu : TUState) (t : List (String × DefInfo)) :
    List (String × DefInfo) :=
  (externalUses tu).foldl recordUse ((unusedDefs tu).foldl (recordDef cwd) t)

/-- The whole aggregation run: every TU's `finalize` merged (in TU
completion order) into the initially empty `AllDecls` map. -/
def program (cwd : String) (tus : List TUState) : List (String × DefInfo) :=
  tus.foldl (fun t tu => finalize cwd tu t) []

/-- The entries the report loop of `main` fires on: a known definition
whose aggregated use count is zero. -/
def findings (t : List (String × DefInfo)) : List (String × DefInfo) :=
  t.filter (fun kv => kv.2.Definition.isSome && kv.2.Uses == 0)

/-- The warning line `main` prints for one unused function.  Note that
`Filename` here is the string stored by `finalize` from
`SM.getFilename(Begin)`, which is NOT passed through `makeAbsolutePath`. -/
def warningLine (I : DefInfo) : String :=
  I.Filename ++ ":" ++ toString I.Line ++ ": warning: Function \x27" ++ I.Name ++ "\x27 is unused"

/-- One `note: declared here` line per known prototype. -/
def noteLine (D : DeclLoc) : String :=
  D.Filename ++ ":" ++ toString D.Line ++ ": note: declared here"

/-- The lines one map entry contributes to the diagnostic stream:
nothing unless the entry has a definition and a zero use count. -/
def emittedLines (kv : String × DefInfo) : List String :=
  if kv.2.Definition.isSome && kv.2.Uses == 0 then
    warningLine kv.2 :: kv.2.Declarations.map noteLine
  else []

/-- The diagnostic stream of the report loop in `main`: iterate `AllDecls`
in its (USR-sorted) map order and emit each entry's lines. -/
def reportLines : List (String × DefInfo) → List String
  | [] => []
  | kv :: rest => emittedLines kv ++ reportLines rest

/-- The `NumUnusedFunctions` statistic: incremented once per finding. -/
def numUnusedFunctions (t : List (String × DefInfo)) : Nat :=
  (findings t).length

/-- The outcome of `Executor->get()->execute(...)`: the per-TU handler
states that were finalized, plus whether `execute` returned an error
(which `main` only prints). -/
structure ExecOutcome where
  execError : Bool
  tus : List TUState
deriving DecidableEq

/-- Control flow of `main`: when `createExecutorFromCommandLineArgs` fails
no analysis runs and `main` returns 1; otherwise the TUs are processed,
the report is printed, and `main` falls off its end, returning 0 (an
`execute` error is printed but does not change the exit status). -/
def xunusedMain (cwd : String) (executor : Option ExecOutcome) :
    Nat × List String :=
  match executor with
  | none => (1, [])
  | some out => (0, reportLines (program cwd out.tus))

/-! Test fixtures used by the concrete witness and counterexample
theorems below.  `fdBase` is a plain project-local function definition;
the per-claim fixtures override the fields a scenario needs. -/

/-- A baseline canonical decl: a plain, strong, non-template, non-member
function with a body, written in its TU's main file. -/
def fdBase : FuncDecl :=
  ⟨0, none, "", "", 0, false, true, false, false, true, false, false, false, 0, false, false, false, []⟩

/-- C1 fixture: a strong function defined in one TU, never referenced. -/
def fC1 : FuncDecl :=
  { fdBase with declId := 1, usr := some ("c:@F@f1#"), name := "f1",
                filename := "/src/a.cpp", line := 10,
                redecls := [⟨true, "/src/a.cpp", 10⟩, ⟨false, "a.h", 2⟩] }

/-- C1 fixture: the TU defining `fC1`. -/
def tuC1 : TUState := ⟨[fC1], []⟩

/-- C2 fixture: a function defined in TU A. -/
def fC2 : FuncDecl :=
  { fdBase with declId := 2, usr := some ("c:@F@f2#"), name := "f2",
                filename := "/src/a.cpp", line := 20 }

/-- C2 fixture: the canonical decl of the same symbol as seen from TU B
(a different AST, hence a different decl identity, same USR). -/
def fC2b : FuncDecl :=
  { fdBase with declId := 3, usr := some ("c:@F@f2#"), name := "f2",
                filename := "/src/b.cpp", line := 1, hasBody := false }

/-- C2 fixture: TU A defines `fC2` and does not use it. -/
def tuC2a : TUState := ⟨[fC2], []⟩

/-- C2 fixture: TU B only references the symbol. -/
def tuC2b : TUState := ⟨[], [fC2b]⟩

/-- C3 fixture: a weak definition. -/
def fC3 : FuncDecl :=
  { fdBase with declId := 4, usr := some ("c:@F@f3#"), name := "f3",
                isWeak := true, filename := "/src/c.cpp", line := 5 }

/-- C3 fixture: the TU defines the weak `fC3` and also uses it. -/
def tuC3 : TUState := ⟨[fC3], [fC3]⟩

/-- C4 fixture: a destructor definition. -/
def fC4 : FuncDecl :=
  { fdBase with declId := 5, usr := some ("c:@S@T@F@~T#"), name := "T::~T",
                isMethod := true, isDestructor := true,
                filename := "/src/d.cpp", line := 7 }

/-- C4 fixture: the matcher event for the destructor definition. -/
def eC4 : FnDeclEvent := ⟨fC4, none, none⟩

/-- C5 fixture: a symbol (incorrectly) defined in TU X... -/
def fC5x : FuncDecl :=
  { fdBase with declId := 6, usr := some ("c:@F@dup#"), name := "dup",
                filename := "/src/x.cpp", line := 1 }

/-- C5 fixture: ... and defined again, at another location, in TU Y. -/
def fC5y : FuncDecl :=
  { fdBase with declId := 7, usr := some ("c:@F@dup#"), name := "dup",
                filename := "/src/y.cpp", line := 2 }

/-- C5 fixture: TU X. -/
def tuC5x : TUState := ⟨[fC5x], []⟩

/-- C5 fixture: TU Y. -/
def tuC5y : TUState := ⟨[fC5y], []⟩

/-- C5 witness fixture: an unused function of TU A. -/
def fC5a : FuncDecl :=
  { fdBase with declId := 8, usr := some ("c:@F@a#"), name := "a",
                filename := "/src/a.cpp", line := 1 }

/-- C5 witness fixture: an unused function of TU B. -/
def fC5b : FuncDecl :=
  { fdBase with declId := 9, usr := some ("c:@F@b#"), name := "b",
                filename := "/src/b.cpp", line := 2 }

/-- C5 witness fixture: TU A. -/
def tuC5a : TUState := ⟨[fC5a], []⟩

/-- C5 witness fixture: TU B. -/
def tuC5b : TUState := ⟨[fC5b], []⟩

/-- C6 fixture: an externally defined function referenced twice. -/
def fC6 : FuncDecl :=
  { fdBase with declId := 10, usr := some ("c:@F@g#"), name := "g",
                hasBody := false }

/-- C6 fixture: the `DeclRefExpr` reference to `fC6`. -/
def dC6 : RefInfo := ⟨true, fC6, none⟩

/-- C7 fixture: a definition observation arriving for a symbol whose
record already exists. -/
def fC7 : FuncDecl :=
  { fdBase with declId := 11, usr := some ("c:@F@h#"), name := "h",
                filename := "/src/h2.cpp", line := 3 }

/-- C7 fixture: a table that already holds a use-only record for the
symbol. -/
def tC7 : List (String × DefInfo) :=
  [(("c:@F@h#"), ⟨none, 2, "", "", 0, []⟩)]

/-- C8 fixture: a definition whose compile command used a relative path,
with a prototype in a relative-path header. -/
def fC8 : FuncDecl :=
  { fdBase with declId := 12, usr := some ("c:@F@r#"), name := "r",
                filename := "rel.cpp", line := 3,
                redecls := [⟨true, "rel.cpp", 3⟩, ⟨false, "r.h", 1⟩] }

/-- C8 fixture: the TU defining `fC8`. -/
def tuC8 : TUState := ⟨[fC8], []⟩

/-- C10 fixture: a weak definition with no use anywhere. -/
def fC10 : FuncDecl :=
  { fdBase with declId := 13, usr := some ("c:@F@w#"), name := "w",
                isWeak := true, filename := "/src/w.cpp", line := 4 }

/-- C10 fixture: the TU defining the weak `fC10`. -/
def tuC10 : TUState := ⟨[fC10], []⟩

/-! Auxiliary notions used by the theorems: the sorted-map representation
invariant, and the per-key effect of one TU's merge on the table. -/

/-- Representation invariant of `AllDecls`: keys strictly increase in the
`std::map` string order. -/
def TableSorted (t : List (String × DefInfo)) : Prop :=
  t.Pairwise (fun a b => strLtb a.1 b.1 = true)

/-- The use count stored at an optional record (0 when absent). -/
def usesOf : Option DefInfo → Nat
  | none => 0
  | some v => v.Uses

/-- Per-key effect of one `UnusedDefs` entry `F` on the record stored at
`F`'s USR: the definition metadata is (over)written, an existing use count
is kept. -/
def applyDef (cwd : String) (v : Option DefInfo) (F : FuncDecl) : Option DefInfo :=
  some (defInfoFor cwd F (usesOf v))

/-- Per-key effect of a sequence of `UnusedDefs` entries with this key. -/
def applyDefsOpt (cwd : String) (v : Option DefInfo) (fs : List FuncDecl) : Option DefInfo :=
  fs.foldl (applyDef cwd) v

/-- Per-key effect of `n` `ExternalUses` entries with this key. -/
def applyUsesOpt (v : Option DefInfo) (n : Nat) : Option DefInfo :=
  if n = 0 then v
  else
    match v with
    | none => some ⟨none, n, "", "", 0, []⟩
    | some w => some ⟨w.Definition, w.Uses + n, w.Name, w.Filename, w.Line, w.Declarations⟩

/-- Per-key effect of one TU's whole `finalize` on the record at one key. -/
def applyTU (cwd : String) (v : Option DefInfo) (fs : List FuncDecl) (n : Nat) : Option DefInfo :=
  applyUsesOpt (applyDefsOpt cwd v fs) n

/-- The unused-candidate entries of a TU whose USR is `u`. -/
def defsAtU (tu : TUState) (u : String) : List FuncDecl :=
  (unusedDefs tu).filter (fun g => g.usr == some u)

/-- The number of external-use entries of a TU whose USR is `u`. -/
def usesCountAt (tu : TUState) (u : String) : Nat :=
  ((externalUses tu).filter (fun g => g.usr == some u)).length

/-- The four exemption categories of claim C4, evaluated on a matcher
event: no body on the matched decl, or (on the resolved decl) an
overriding non-pure virtual method, a destructor, or the entry point. -/
def claimExemptb (e : FnDeclEvent) : Bool :=
  !e.matched.hasBody ||
  ((resolveFn e).isMethod && (resolveFn e).isVirtual && !(resolveFn e).isPure &&
     (resolveFn e).numOverridden != 0) ||
  ((resolveFn e).isMethod && (resolveFn e).isDestructor) ||
  (resolveFn e).isMain

/-! Order lemmas for the map key comparison. -/

theorem listLtb_irrefl (l : List Char) : listLtb l l = false := by
  induction l with
  | nil => rfl
  | cons a as ih => simp [listLtb, ih]

theorem listLtb_trans {a b c : List Char} (h1 : listLtb a b = true)
    (h2 : listLtb b c = true) : listLtb a c = true := by
  induction a generalizing b c with
  | nil =>
    cases b with
    | nil => simp [listLtb] at h1
    | cons y ys =>
      cases c with
      | nil => simp [listLtb] at h2
      | cons z zs => simp [listLtb]
  | cons x xs ih =>
    cases b with
    | nil => simp [listLtb] at h1
    | cons y ys =>
      cases c with
      | nil => simp [listLtb] at h2
      | cons z zs =>
        by_cases hxy : x < y
        · by_cases hyz : y < z
          · simp [listLtb, lt_trans hxy hyz]
          · by_cases hzy : z < y
            · simp [listLtb, hyz, hzy] at h2
            · have he : y = z := le_antisymm (le_of_not_lt hzy) (le_of_not_lt hyz)
              subst he
              simp [listLtb, hxy]
        · by_cases hyx : y < x
          · simp [listLtb, hxy, hyx] at h1
          · have he : x = y := le_antisymm (le_of_not_lt hyx) (le_of_not_lt hxy)
            subst he
            simp only [listLtb, lt_irrefl, if_false, ite_self, if_neg (lt_irrefl x)] at h1
            by_cases hxz : x < z
            · simp [listLtb, hxz]
            · by_cases hzx : z < x
              · simp [listLtb, hxz, hzx] at h2
              · have he2 : x = z := le_antisymm (le_of_not_lt hzx) (le_of_not_lt hxz)
                subst he2
                simp only [listLtb, lt_irrefl, if_false, if_neg (lt_irrefl x)] at h2 ⊢
                exact ih h1 h2

theorem listLtb_total {a b : List Char} (hab : listLtb a b = false)
    (hba : listLtb b a = false) : a = b := by
  induction a generalizing b with
  | nil =>
    cases b with
    | nil => rfl
    | cons y ys => simp [listLtb] at hab
  | cons x xs ih =>
    cases b with
    | nil => simp [listLtb] at hba
    | cons y ys =>
      by_cases hxy : x < y
      · simp [listLtb, hxy] at hab
      · by_cases hyx : y < x
        · simp [listLtb, hyx] at hba
        · have he : x = y := le_antisymm (le_of_not_lt hyx) (le_of_not_lt hxy)
          subst he
          simp only [listLtb, lt_irrefl, if_false, if_neg (lt_irrefl x)] at hab hba
          rw [ih hab hba]

theorem strLtb_irrefl (a : String) : strLtb a a = false := listLtb_irrefl a.data

theorem strLtb_trans {a b c : String} (h1 : strLtb a b = true)
    (h2 : strLtb b c = true) : strLtb a c = true := listLtb_trans h1 h2

theorem strLtb_total {a b : String} (hab : strLtb a b = false)
    (hba : strLtb b a = false) : a = b :=
  String.ext (listLtb_total hab hba)

theorem strLtb_ne {a b : String} (h : strLtb a b = true) : a ≠ b := by
  intro he
  subst he
  rw [strLtb_irrefl] at h
  exact absurd h (by simp)

theorem strLtb_of_ne_of_not_lt {a b : String} (h1 : ¬ a = b)
    (h2 : ¬ strLtb a b = true) : strLtb b a = true := by
  cases hba : strLtb b a with
  | true => rfl
  | false =>
    cases hab : strLtb a b with
    | true => exact absurd hab h2
    | false => exact absurd (strLtb_total hab hba) h1

/-! Lemmas about the sorted association-list embedding of `AllDecls`. -/

theorem lookupMap_eq_none_of_forall_ne {u : String}
    {t : List (String × DefInfo)} (h : ∀ kv ∈ t, ¬ u = kv.1) :
    lookupMap u t = none := by
  induction t with
  | nil => rfl
  | cons kv rest ih =>
    simp only [lookupMap]
    rw [if_neg (h kv (List.mem_cons_self kv rest))]
    exact ih (fun kv' hm => h kv' (List.mem_cons_of_mem kv hm))

theorem mem_updateMap_key {k : String} {fresh : DefInfo}
    {upd : DefInfo → DefInfo} {t : List (String × DefInfo)}
    {kv' : String × DefInfo} (h : kv' ∈ updateMap k fresh upd t) :
    kv'.1 = k ∨ kv'.1 ∈ t.map Prod.fst := by
  induction t with
  | nil =>
    simp only [updateMap, List.mem_singleton] at h
    subst h
    exact Or.inl rfl
  | cons kv rest ih =>
    simp only [updateMap] at h
    by_cases he : k = kv.1
    · rw [if_pos he] at h
      rcases List.mem_cons.mp h with h1 | h1
      · subst h1
        exact Or.inr (by simp)
      · exact Or.inr (List.mem_map.mpr ⟨kv', List.mem_cons_of_mem kv h1, rfl⟩)
    · rw [if_neg he] at h
      by_cases hl : strLtb k kv.1
      · rw [if_pos hl] at h
        rcases List.mem_cons.mp h with h1 | h1
        · subst h1
          exact Or.inl rfl
        · exact Or.inr (List.mem_map.mpr ⟨kv', h1, rfl⟩)
      · rw [if_neg hl] at h
        rcases List.mem_cons.mp h with h1 | h1
        · subst h1
          exact Or.inr (by simp)
        · rcases ih h1 with h2 | h2
          · exact Or.inl h2
          · exact Or.inr (by simp only [List.map_cons, List.mem_cons]; exact Or.inr h2)

theorem updateMap_sorted {k : String} {fresh : DefInfo}
    {upd : DefInfo → DefInfo} {t : List (String × DefInfo)}
    (hs : TableSorted t) : TableSorted (updateMap k fresh upd t) := by
  induction t with
  | nil => exact List.pairwise_singleton _ _
  | cons kv rest ih =>
    rw [TableSorted, List.pairwise_cons] at hs
    obtain ⟨h1, h2⟩ := hs
    simp only [updateMap]
    by_cases he : k = kv.1
    · rw [if_pos he]
      exact List.pairwise_cons.mpr ⟨h1, h2⟩
    · rw [if_neg he]
      by_cases hl : strLtb k kv.1
      · rw [if_pos hl]
        apply List.pairwise_cons.mpr
        constructor
        · intro b hb
          rcases List.mem_cons.mp hb with h3 | h3
          · subst h3
            exact hl
          · exact strLtb_trans hl (h1 b h3)
        · exact List.pairwise_cons.mpr ⟨h1, h2⟩
      · rw [if_neg hl]
        apply List.pairwise_cons.mpr
        constructor
        · intro b hb
          rcases mem_updateMap_key hb with h3 | h3
          · rw [h3]
            exact strLtb_of_ne_of_not_lt he (by simpa using hl)
          · rcases List.mem_map.mp h3 with ⟨b', hb', he'⟩
            rw [← he']
            exact h1 b' hb'
        · exact ih h2

theorem lookupMap_updateMap_ne {k u : String} {fresh : DefInfo}
    {upd : DefInfo → DefInfo} {t : List (String × DefInfo)} (h : ¬ u = k) :
    lookupMap u (updateMap k fresh upd t) = lookupMap u t := by
  induction t with
  | nil => simp [updateMap, lookupMap, h]
  | cons kv rest ih =>
    simp only [updateMap]
    by_cases he : k = kv.1
    · rw [if_pos he]
      simp only [lookupMap]
      rw [← he, if_neg h, if_neg h]
    · rw [if_neg he]
      by_cases hl : strLtb k kv.1
      · rw [if_pos hl]
        simp only [lookupMap]
        rw [if_neg h]
      · rw [if_neg hl]
        simp only [lookupMap]
        by_cases hu : u = kv.1
        · rw [if_pos hu, if_pos hu]
        · rw [if_neg hu, if_neg hu]
          exact ih

theorem lookupMap_updateMap_self {k : String} {fresh : DefInfo}
    {upd : DefInfo → DefInfo} {t : List (String × DefInfo)}
    (hs : TableSorted t) :
    lookupMap k (updateMap k fresh upd t) =
      some ((lookupMap k t).elim fresh upd) := by
  induction t with
  | nil => simp [updateMap, lookupMap]
  | cons kv rest ih =>
    rw [TableSorted, List.pairwise_cons] at hs
    obtain ⟨h1, h2⟩ := hs
    simp only [updateMap]
    by_cases he : k = kv.1
    · rw [if_pos he]
      simp only [lookupMap, ← he]
      simp
    · rw [if_neg he]
      by_cases hl : strLtb k kv.1
      · rw [if_pos hl]
        have hnone : lookupMap k rest = none := by
          apply lookupMap_eq_none_of_forall_ne
          intro kv' hm
          exact strLtb_ne (strLtb_trans hl (h1 kv' hm))
        simp [lookupMap, he, hnone]
      · rw [if_neg hl]
        simp only [lookupMap]
        rw [if_neg he, if_neg he]
        exact ih h2

theorem lookupMap_mem {u : String} {v : DefInfo} {t : List (String × DefInfo)}
    (h : lookupMap u t = some v) : (u, v) ∈ t := by
  induction t with
  | nil => simp [lookupMap] at h
  | cons kv rest ih =>
    simp only [lookupMap] at h
    by_cases he : u = kv.1
    · rw [if_pos he] at h
      have hv : v = kv.2 := by
        injection h with h'
        exact h'.symm
      rw [he, hv]
      exact List.mem_cons_self kv rest
    · rw [if_neg he] at h
      exact List.mem_cons_of_mem kv (ih h)

theorem mem_lookupMap {t : List (String × DefInfo)}
    {kv : String × DefInfo} (hs : TableSorted t) (h : kv ∈ t) :
    lookupMap kv.1 t = some kv.2 := by
  induction t with
  | nil => simp at h
  | cons kv' rest ih =>
    rw [TableSorted, List.pairwise_cons] at hs
    obtain ⟨h1, h2⟩ := hs
    rcases List.mem_cons.mp h with h3 | h3
    · subst h3
      simp [lookupMap]
    · simp only [lookupMap]
      have hne : ¬ kv.1 = kv'.1 := by
        intro he
        exact strLtb_ne (h1 kv h3) he.symm
      rw [if_neg hne]
      exact ih h2 h3

theorem table_ext {t1 t2 : List (String × DefInfo)} (hs1 : TableSorted t1)
    (hs2 : TableSorted t2) (h : ∀ u, lookupMap u t1 = lookupMap u t2) :
    t1 = t2 := by
  induction t1 generalizing t2 with
  | nil =>
    cases t2 with
    | nil => rfl
    | cons kv2 r2 =>
      have hx := h kv2.1
      rw [mem_lookupMap hs2 (List.mem_cons_self kv2 r2)] at hx
      simp [lookupMap] at hx
  | cons kv1 r1 ih =>
    cases t2 with
    | nil =>
      have hx := h kv1.1
      rw [mem_lookupMap hs1 (List.mem_cons_self kv1 r1)] at hx
      simp [lookupMap] at hx
    | cons kv2 r2 =>
      rw [TableSorted, List.pairwise_cons] at hs1 hs2
      obtain ⟨h11, h12⟩ := hs1
      obtain ⟨h21, h22⟩ := hs2
      have hke : kv1.1 = kv2.1 := by
        by_contra hne
        by_cases hl : strLtb kv1.1 kv2.1
        · have hx := h kv1.1
          simp only [lookupMap] at hx
          rw [if_neg hne] at hx
          rw [lookupMap_eq_none_of_forall_ne
            (fun kv' hm => strLtb_ne (strLtb_trans hl (h21 kv' hm)))] at hx
          simp at hx
        · have hl2 : strLtb kv2.1 kv1.1 = true :=
            strLtb_of_ne_of_not_lt hne (by simpa using hl)
          have hx := h kv2.1
          simp only [lookupMap] at hx
          rw [if_neg (fun he => hne he.symm)] at hx
          rw [lookupMap_eq_none_of_forall_ne
            (fun kv' hm => strLtb_ne (strLtb_trans hl2 (h11 kv' hm)))] at hx
          simp at hx
      have hve : kv1.2 = kv2.2 := by
        have hx1 : lookupMap kv1.1 (kv1 :: r1) = some kv1.2 := by
          simp [lookupMap]
        have hx2 : lookupMap kv1.1 (kv2 :: r2) = some kv2.2 := by
          rw [hke]
          simp [lookupMap]
        have hx := (hx1.symm.trans (h kv1.1)).trans hx2
        injection hx
      have htail : ∀ u, lookupMap u r1 = lookupMap u r2 := by
        intro u
        by_cases hu : u = kv1.1
        · subst hu
          rw [lookupMap_eq_none_of_forall_ne (fun kv' hm => strLtb_ne (h11 kv' hm)),
            lookupMap_eq_none_of_forall_ne
              (fun kv' hm => strLtb_ne (hke ▸ h21 kv' hm))]
        · have hx := h u
          simp only [lookupMap] at hx
          rw [if_neg hu, if_neg (hke ▸ hu)] at hx
          exact hx
      have hkv : kv1 = kv2 := Prod.ext hke hve
      rw [hkv, ih h12 h22 htail]

/-! Per-key characterization of the merge operations. -/

theorem recordDef_sorted {cwd : String} {t : List (String × DefInfo)}
    {F : FuncDecl} (hs : TableSorted t) : TableSorted (recordDef cwd t F) := by
  unfold recordDef
  cases F.usr with
  | none => exact hs
  | some u => exact updateMap_sorted hs

theorem recordUse_sorted {t : List (String × DefInfo)}
    {F : FuncDecl} (hs : TableSorted t) : TableSorted (recordUse t F) := by
  unfold recordUse
  cases F.usr with
  | none => exact hs
  | some u => exact updateMap_sorted hs

theorem lookupMap_recordDef {cwd u : String} {t : List (String × DefInfo)}
    {F : FuncDecl} (hs : TableSorted t) :
    lookupMap u (recordDef cwd t F) =
      if F.usr == some u then applyDef cwd (lookupMap u t) F
      else lookupMap u t := by
  unfold recordDef
  cases hF : F.usr with
  | none => simp
  | some u' =>
    by_cases he : u' = u
    · subst he
      simp only [beq_iff_eq, if_pos rfl]
      rw [lookupMap_updateMap_self hs]
      unfold applyDef defInfoFor usesOf
      cases lookupMap u' t with
      | none => rfl
      | some v => rfl
    · have hne : ¬ u = u' := fun hx => he hx.symm
      rw [lookupMap_updateMap_ne hne]
      have : (some u' == some u) = false := by
        simp [he]
      rw [this]
      simp

theorem lookupMap_recordUse {u : String} {t : List (String × DefInfo)}
    {F : FuncDecl} (hs : TableSorted t) :
    lookupMap u (recordUse t F) =
      if F.usr == some u then applyUsesOpt (lookupMap u t) 1
      else lookupMap u t := by
  unfold recordUse
  cases hF : F.usr with
  | none => simp
  | some u' =>
    by_cases he : u' = u
    · subst he
      simp only [beq_iff_eq, if_pos rfl]
      rw [lookupMap_updateMap_self hs]
      unfold applyUsesOpt
      cases lookupMap u' t with
      | none => rfl
      | some v => rfl
    · have hne : ¬ u = u' := fun hx => he hx.symm
      rw [lookupMap_updateMap_ne hne]
      have : (some u' == some u) = false := by
        simp [he]
      rw [this]
      simp

theorem foldl_recordDef_sorted {cwd : String} {L : List FuncDecl}
    {t : List (String × DefInfo)} (hs : TableSorted t) :
    TableSorted (L.foldl (recordDef cwd) t) := by
  induction L generalizing t with
  | nil => exact hs
  | cons F L ih => exact ih (recordDef_sorted hs)

theorem foldl_recordUse_sorted {L : List FuncDecl}
    {t : List (String × DefInfo)} (hs : TableSorted t) :
    TableSorted (L.foldl recordUse t) := by
  induction L generalizing t with
  | nil => exact hs
  | cons F L ih => exact ih (recordUse_sorted hs)

theorem finalize_sorted {cwd : String} {tu : TUState}
    {t : List (String × DefInfo)} (hs : TableSorted t) :
    TableSorted (finalize cwd tu t) :=
  foldl_recordUse_sorted (foldl_recordDef_sorted hs)

theorem program_sorted (cwd : String) (tus : List TUState) :
    TableSorted (program cwd tus) := by
  unfold program
  have h : ∀ t : List (String × DefInfo), TableSorted t →
      TableSorted (tus.foldl (fun t tu => finalize cwd tu t) t) := by
    induction tus with
    | nil => exact fun t ht => ht
    | cons tu tus ih => exact fun t ht => ih _ (finalize_sorted ht)
  exact h [] (List.Pairwise.nil)

theorem lookupMap_foldl_recordDef {cwd u : String} {L : List FuncDecl}
    {t : List (String × DefInfo)} (hs : TableSorted t) :
    lookupMap u (L.foldl (recordDef cwd) t) =
      applyDefsOpt cwd (lookupMap u t) (L.filter (fun g => g.usr == some u)) := by
  induction L generalizing t with
  | nil => rfl
  | cons F L ih =>
    simp only [List.foldl_cons]
    rw [ih (recordDef_sorted hs), lookupMap_recordDef hs]
    by_cases hF : (F.usr == some u) = true
    · rw [if_pos hF]
      simp only [List.filter_cons, hF, if_true]
      rfl
    · have hF' : (F.usr == some u) = false := by
        simpa using hF
      rw [if_neg hF]
      simp [List.filter_cons, hF']

theorem applyUsesOpt_add (v : Option DefInfo) (n m : Nat) :
    applyUsesOpt (applyUsesOpt v n) m = applyUsesOpt v (n + m) := by
  by_cases hn : n = 0
  · subst hn
    simp [applyUsesOpt]
  · by_cases hm : m = 0
    · subst hm
      simp [applyUsesOpt, hn]
    · have hnm : ¬ n + m = 0 := by omega
      cases v with
      | none => simp [applyUsesOpt, hn, hm, hnm]
      | some w => simp [applyUsesOpt, hn, hm, hnm, Nat.add_assoc]

theorem lookupMap_foldl_recordUse {u : String} {L : List FuncDecl}
    {t : List (String × DefInfo)} (hs : TableSorted t) :
    lookupMap u (L.foldl recordUse t) =
      applyUsesOpt (lookupMap u t) (L.filter (fun g => g.usr == some u)).length := by
  induction L generalizing t with
  | nil =>
    simp only [List.foldl_nil, List.filter_nil, List.length_nil]
    unfold applyUsesOpt
    simp
  | cons F L ih =>
    simp only [List.foldl_cons]
    rw [ih (recordUse_sorted hs), lookupMap_recordUse hs]
    by_cases hF : (F.usr == some u) = true
    · rw [if_pos hF]
      simp only [List.filter_cons, hF, if_true, List.length_cons]
      rw [applyUsesOpt_add, Nat.add_comm]
    · have hF' : (F.usr == some u) = false := by
        simpa using hF
      rw [if_neg hF]
      simp [List.filter_cons, hF']

theorem lookupMap_finalize {cwd u : String} {tu : TUState}
    {t : List (String × DefInfo)} (hs : TableSorted t) :
    lookupMap u (finalize cwd tu t) =
      applyTU cwd (lookupMap u t) (defsAtU tu u) (usesCountAt tu u) := by
  unfold finalize applyTU defsAtU usesCountAt
  rw [lookupMap_foldl_recordUse (foldl_recordDef_sorted hs),
    lookupMap_foldl_recordDef hs]

theorem lookupMap_foldl_finalize {cwd u : String} {tus : List TUState}
    {t : List (String × DefInfo)} (hs : TableSorted t) :
    lookupMap u (tus.foldl (fun t tu => finalize cwd tu t) t) =
      tus.foldl (fun v tu => applyTU cwd v (defsAtU tu u) (usesCountAt tu u))
        (lookupMap u t) := by
  induction tus generalizing t with
  | nil => rfl
  | cons tu tus ih =>
    simp only [List.foldl_cons]
    rw [ih (finalize_sorted hs), lookupMap_finalize hs]

theorem lookupMap_program (cwd u : String) (tus : List TUState) :
    lookupMap u (program cwd tus) =
      tus.foldl (fun v tu => applyTU cwd v (defsAtU tu u) (usesCountAt tu u))
        none := by
  unfold program
  rw [lookupMap_foldl_finalize List.Pairwise.nil]
  rfl

/-! Consequences of the per-key semantics: use counts are a pure sum of
external-use observations, definition metadata comes only from
unused-candidate observations. -/

theorem usesOf_applyDef (cwd : String) (v : Option DefInfo) (F : FuncDecl) :
    usesOf (applyDef cwd v F) = usesOf v := rfl

theorem usesOf_applyDefsOpt (cwd : String) (v : Option DefInfo)
    (fs : List FuncDecl) : usesOf (applyDefsOpt cwd v fs) = usesOf v := by
  induction fs generalizing v with
  | nil => rfl
  | cons F fs ih =>
    show usesOf (applyDefsOpt cwd (applyDef cwd v F) fs) = usesOf v
    rw [ih, usesOf_applyDef]

theorem usesOf_applyUsesOpt (v : Option DefInfo) (n : Nat) :
    usesOf (applyUsesOpt v n) = usesOf v + n := by
  by_cases hn : n = 0
  · subst hn
    simp [applyUsesOpt]
  · cases v with
    | none => simp [applyUsesOpt, hn, usesOf]
    | some w => simp [applyUsesOpt, hn, usesOf]

theorem usesOf_applyTU (cwd : String) (v : Option DefInfo)
    (fs : List FuncDecl) (n : Nat) :
    usesOf (applyTU cwd v fs n) = usesOf v + n := by
  unfold applyTU
  rw [usesOf_applyUsesOpt, usesOf_applyDefsOpt]

theorem usesOf_foldl_applyTU (cwd u : String) (tus : List TUState)
    (v : Option DefInfo) :
    usesOf (tus.foldl (fun v tu => applyTU cwd v (defsAtU tu u) (usesCountAt tu u)) v) =
      usesOf v + (tus.map (fun tu => usesCountAt tu u)).sum := by
  induction tus generalizing v with
  | nil => simp
  | cons tu tus ih =>
    simp only [List.foldl_cons, List.map_cons, List.sum_cons]
    rw [ih, usesOf_applyTU]
    omega

theorem usesOf_program (cwd u : String) (tus : List TUState) :
    usesOf (lookupMap u (program cwd tus)) =
      (tus.map (fun tu => usesCountAt tu u)).sum := by
  rw [lookupMap_program, usesOf_foldl_applyTU]
  simp [usesOf]

theorem applyTU_defn_none {cwd : String} {v : Option DefInfo} {n : Nat}
    (h : ∀ w, v = some w → w.Definition = none) :
    ∀ w, applyTU cwd v [] n = some w → w.Definition = none := by
  intro w hw
  unfold applyTU applyDefsOpt at hw
  simp only [List.foldl_nil] at hw
  by_cases hn : n = 0
  · subst hn
    simp [applyUsesOpt] at hw
    exact h w hw
  · unfold applyUsesOpt at hw
    rw [if_neg hn] at hw
    cases hv : v with
    | none =>
      rw [hv] at hw
      simp at hw
      rw [← hw]
    | some w' =>
      rw [hv] at hw
      simp at hw
      rw [← hw]
      exact h w' hv

theorem foldl_applyTU_defn_none {cwd u : String} {tus : List TUState}
    {v : Option DefInfo} (hd : ∀ tu ∈ tus, defsAtU tu u = [])
    (h : ∀ w, v = some w → w.Definition = none) :
    ∀ w, tus.foldl (fun v tu => applyTU cwd v (defsAtU tu u) (usesCountAt tu u)) v =
      some w → w.Definition = none := by
  induction tus generalizing v with
  | nil => exact h
  | cons tu tus ih =>
    simp only [List.foldl_cons]
    apply ih (fun tu' hm => hd tu' (List.mem_cons_of_mem tu hm))
    rw [hd tu (List.mem_cons_self tu tus)]
    exact applyTU_defn_none h

theorem applyTU_nil (cwd : String) (v : Option DefInfo) :
    applyTU cwd v [] 0 = v := by
  unfold applyTU applyDefsOpt applyUsesOpt
  simp

theorem applyDefsOpt_const {cwd : String} {f : FuncDecl} {fs : List FuncDecl}
    (hall : ∀ g ∈ fs, g = f) (hne : fs ≠ []) (v : Option DefInfo) :
    applyDefsOpt cwd v fs = some (defInfoFor cwd f (usesOf v)) := by
  induction fs generalizing v with
  | nil => exact absurd rfl hne
  | cons g fs ih =>
    have hg : g = f := hall g (List.mem_cons_self g fs)
    subst hg
    show applyDefsOpt cwd (applyDef cwd v g) fs = some (defInfoFor cwd g (usesOf v))
    cases fs with
    | nil => rfl
    | cons g' fs' =>
      rw [ih (fun x hm => hall x (List.mem_cons_of_mem g hm)) (by simp), usesOf_applyDef]

theorem foldl_applyTU_id {cwd u : String} {tus : List TUState}
    (h : ∀ tu ∈ tus, defsAtU tu u = [] ∧ usesCountAt tu u = 0)
    (v : Option DefInfo) :
    tus.foldl (fun v tu => applyTU cwd v (defsAtU tu u) (usesCountAt tu u)) v = v := by
  induction tus generalizing v with
  | nil => rfl
  | cons tu tus ih =>
    simp only [List.foldl_cons]
    obtain ⟨h1, h2⟩ := h tu (List.mem_cons_self tu tus)
    rw [h1, h2, applyTU_nil]
    exact ih (fun tu' hm => h tu' (List.mem_cons_of_mem tu hm)) v

/-! Report-level lemmas. -/

theorem mem_findings {t : List (String × DefInfo)} {kv : String × DefInfo} :
    kv ∈ findings t ↔
      kv ∈ t ∧ (kv.2.Definition.isSome && kv.2.Uses == 0) = true := by
  simp [findings, List.mem_filter]

theorem filter_findings_key {u : String} {t : List (String × DefInfo)}
    (hs : TableSorted t) :
    (findings t).filter (fun kv => kv.1 == u) =
      (lookupMap u t).elim []
        (fun v => if v.Definition.isSome && v.Uses == 0 then [(u, v)] else []) := by
  induction t with
  | nil => rfl
  | cons kv rest ih =>
    rw [TableSorted, List.pairwise_cons] at hs
    obtain ⟨h1, h2⟩ := hs
    by_cases hu : u = kv.1
    · have hnone : lookupMap u rest = none := by
        apply lookupMap_eq_none_of_forall_ne
        intro kv' hm
        rw [hu]
        exact strLtb_ne (h1 kv' hm)
      have hrest : (findings rest).filter (fun kv => kv.1 == u) = [] := by
        rw [ih h2, hnone]
        rfl
      have hlook : lookupMap u (kv :: rest) = some kv.2 := by
        simp [lookupMap, hu]
      rw [hlook]
      by_cases hp : (kv.2.Definition.isSome && kv.2.Uses == 0) = true
      · have hfind : findings (kv :: rest) = kv :: findings rest := by
          unfold findings
          simp [List.filter_cons, hp]
        rw [hfind]
        simp only [List.filter_cons]
        have : (kv.1 == u) = true := by
          simp [hu]
        rw [this]
        simp only [if_true]
        rw [hrest]
        simp [hp, Option.elim]
        exact Prod.ext hu.symm rfl
      · have hfind : findings (kv :: rest) = findings rest := by
          unfold findings
          simp only [List.filter_cons]
          rw [if_neg hp]
        rw [hfind, hrest]
        simp only [Option.elim]
        rw [if_neg hp]
    · have hlook : lookupMap u (kv :: rest) = lookupMap u rest := by
        simp [lookupMap, hu]
      rw [hlook, ← ih h2]
      by_cases hp : (kv.2.Definition.isSome && kv.2.Uses == 0) = true
      · have hfind : findings (kv :: rest) = kv :: findings rest := by
          unfold findings
          simp [List.filter_cons, hp]
        rw [hfind]
        simp only [List.filter_cons]
        have : (kv.1 == u) = false := by
          simp
          intro he
          exact hu he.symm
        rw [this]
        simp
      · have hfind : findings (kv :: rest) = findings rest := by
          unfold findings
          simp only [List.filter_cons]
          rw [if_neg hp]
        rw [hfind]

theorem reportLines_eq_findings (t : List (String × DefInfo)) :
    reportLines t =
      ((findings t).map
        (fun kv => warningLine kv.2 :: kv.2.Declarations.map noteLine)).flatten := by
  induction t with
  | nil => rfl
  | cons kv rest ih =>
    show emittedLines kv ++ reportLines rest = _
    by_cases hp : (kv.2.Definition.isSome && kv.2.Uses == 0) = true
    · have hfind : findings (kv :: rest) = kv :: findings rest := by
        unfold findings
        simp [List.filter_cons, hp]
      rw [hfind]
      simp only [List.map_cons, List.flatten_cons]
      rw [← ih]
      unfold emittedLines
      rw [if_pos hp]
    · have hfind : findings (kv :: rest) = findings rest := by
        unfold findings
        simp only [List.filter_cons]
        rw [if_neg hp]
      rw [hfind, ← ih]
      unfold emittedLines
      rw [if_neg hp]
      simp

theorem isAbsolutePath_append (cwd s : String) (hc : isAbsolutePath cwd = true) :
    isAbsolutePath (cwd ++ s) = true := by
  unfold isAbsolutePath at hc ⊢
  rw [String.data_append]
  cases hd : cwd.data with
  | nil =>
    rw [hd] at hc
    simp at hc
  | cons c cs =>
    rw [hd] at hc
    simpa using hc

theorem makeAbsolutePath_absolute {cwd : String} (p : String)
    (hc : isAbsolutePath cwd = true) :
    isAbsolutePath (makeAbsolutePath cwd p) = true := by
  have happ : isAbsolutePath (cwd ++ "/" ++ p) = true :=
    isAbsolutePath_append _ _ (isAbsolutePath_append _ _ hc)
  unfold makeAbsolutePath
  cases hd : p.data with
  | nil =>
    exact happ
  | cons c cs =>
    show isAbsolutePath (if c = '/' then p else cwd ++ "/" ++ p) = true
    by_cases hcs : c = '/'
    · rw [if_pos hcs]
      unfold isAbsolutePath
      rw [hd]
      show decide (c = '/') = true
      simp [hcs]
    · rw [if_neg hcs]
      exact happ

theorem getDeclarations_absolute {cwd : String} (F : FuncDecl)
    (hc : isAbsolutePath cwd = true) :
    ∀ d ∈ getDeclarations cwd F, isAbsolutePath d.Filename = true := by
  intro d hd
  unfold getDeclarations at hd
  rcases List.mem_map.mp hd with ⟨r, hr, he⟩
  rw [← he]
  exact makeAbsolutePath_absolute r.Filename hc

/-! Classifier-level lemmas. -/

theorem mem_insertDecl {F g : FuncDecl} {s : List FuncDecl}
    (h : g ∈ insertDecl F s) : g ∈ s ∨ g = F := by
  unfold insertDecl at h
  by_cases hc : (s.any (fun g => g.declId == F.declId)) = true
  · rw [if_pos hc] at h
    exact Or.inl h
  · rw [if_neg hc] at h
    rcases List.mem_append.mp h with h1 | h1
    · exact Or.inl h1
    · exact Or.inr (List.mem_singleton.mp h1)

theorem mem_unusedDefs {tu : TUState} {f : FuncDecl} :
    f ∈ unusedDefs tu ↔
      f ∈ tu.Defs ∧ (tu.Uses.any (fun y => y.declId == f.declId)) = false := by
  simp [unusedDefs, setDifference, List.mem_filter]

theorem mem_externalUses {tu : TUState} {g : FuncDecl} :
    g ∈ externalUses tu ↔
      g ∈ tu.Uses ∧
        ((defsAfterWeakRemoval tu).any (fun y => y.declId == g.declId)) = false := by
  simp [externalUses, setDifference, List.mem_filter]

theorem mem_defsAtU {tu : TUState} {u : String} {g : FuncDecl} :
    g ∈ defsAtU tu u ↔ g ∈ unusedDefs tu ∧ g.usr = some u := by
  simp [defsAtU, List.mem_filter]

theorem handleUse_Defs (st : TUState) (d : RefInfo) :
    (handleUse st d).Defs = st.Defs := by
  unfold handleUse
  by_cases h1 : d.isFunctionDecl
  · by_cases h2 : d.decl.inSystemHeader
    · simp [h1, h2]
    · simp [h1, h2]
  · simp [h1]

theorem runFnDecl_Defs_exempt (st : TUState) (e : FnDeclEvent)
    (h : claimExemptb e = true) : (runFnDecl st e).Defs = st.Defs := by
  unfold runFnDecl
  by_cases hb : e.matched.hasBody
  · simp only [hb, Bool.not_true, Bool.false_eq_true, if_false]
    by_cases h1 : (resolveFn e).inSystemHeader
    · simp [h1]
    · by_cases h2 : (resolveFn e).writtenInMainFile
      · by_cases h3 : ((resolveFn e).isMethod && (resolveFn e).isVirtual &&
            !(resolveFn e).isPure && (resolveFn e).numOverridden != 0) = true
        · simp [h1, h2, h3]
        · by_cases h4 : ((resolveFn e).isMethod && (resolveFn e).isDestructor) = true
          · simp [h1, h2, h3, h4]
          · by_cases h5 : (resolveFn e).isMain = true
            · simp [h1, h2, h3, h4, h5]
            · exfalso
              unfold claimExemptb at h
              rw [hb] at h
              simp only [Bool.not_true, Bool.false_or] at h
              rcases Bool.or_eq_true_iff.mp h with h6 | h6
              · rcases Bool.or_eq_true_iff.mp h6 with h7 | h7
                · exact h3 h7
                · exact h4 h7
              · exact h5 h6
      · simp [h1, h2]
  · simp [hb]

theorem runEvent_Defs_mem {st : TUState} {ev : MatchEvent} {g : FuncDecl}
    (h : g ∈ (runEvent st ev).Defs) :
    g ∈ st.Defs ∨
      ∃ e, ev = MatchEvent.fnDecl e ∧ g = resolveFn e ∧ claimExemptb e = false := by
  cases ev with
  | declRef d =>
    rw [runEvent, handleUse_Defs] at h
    exact Or.inl h
  | memberRef d =>
    rw [runEvent, handleUse_Defs] at h
    exact Or.inl h
  | cxxConstructExpr d =>
    rw [runEvent, handleUse_Defs] at h
    exact Or.inl h
  | fnDecl e =>
    rw [runEvent] at h
    unfold runFnDecl at h
    by_cases hb : e.matched.hasBody
    · rw [hb] at h
      simp only [Bool.not_true, Bool.false_eq_true, if_false] at h
      by_cases h1 : (resolveFn e).inSystemHeader
      · rw [if_pos h1] at h
        exact Or.inl h
      · rw [if_neg h1] at h
        by_cases h2 : (resolveFn e).writtenInMainFile
        · simp only [h2, Bool.not_true, Bool.false_eq_true, if_false] at h
          by_cases h3 : ((resolveFn e).isMethod && (resolveFn e).isVirtual &&
              !(resolveFn e).isPure && (resolveFn e).numOverridden != 0) = true
          · rw [if_pos h3] at h
            exact Or.inl h
          · rw [if_neg h3] at h
            by_cases h4 : ((resolveFn e).isMethod && (resolveFn e).isDestructor) = true
            · rw [if_pos h4] at h
              exact Or.inl h
            · rw [if_neg h4] at h
              by_cases h5 : (resolveFn e).isMain = true
              · rw [if_pos h5] at h
                exact Or.inl h
              · rw [if_neg h5] at h
                have hdefs : g ∈ insertDecl (resolveFn e) st.Defs := by
                  by_cases h6 : (resolveFn e).hasConstructorAttr = true
                  · rw [if_pos h6, handleUse_Defs] at h
                    exact h
                  · rw [if_neg h6] at h
                    exact h
                rcases mem_insertDecl hdefs with h7 | h7
                · exact Or.inl h7
                · refine Or.inr ⟨e, rfl, h7, ?_⟩
                  unfold claimExemptb
                  rw [hb]
                  simp only [Bool.not_true, Bool.false_or]
                  rw [Bool.or_eq_false_iff, Bool.or_eq_false_iff]
                  refine ⟨⟨?_, ?_⟩, ?_⟩
                  · simpa using h3
                  · simpa using h4
                  · simpa using h5
        · have h2' : (resolveFn e).writtenInMainFile = false := by
            simpa using h2
          rw [h2'] at h
          simp only [Bool.not_false, if_true] at h
          exact Or.inl h
    · have hb' : e.matched.hasBody = false := by
        simpa using hb
      rw [hb'] at h
      simp only [Bool.not_false, if_true] at h
      exact Or.inl h

theorem foldl_runEvent_Defs_mem {evs : List MatchEvent} {st : TUState}
    {g : FuncDecl} (h : g ∈ (evs.foldl runEvent st).Defs) :
    g ∈ st.Defs ∨
      ∃ e, MatchEvent.fnDecl e ∈ evs ∧ g = resolveFn e ∧ claimExemptb e = false := by
  induction evs generalizing st with
  | nil => exact Or.inl h
  | cons ev evs ih =>
    simp only [List.foldl_cons] at h
    rcases ih h with h1 | ⟨e, he1, he2, he3⟩
    · rcases runEvent_Defs_mem h1 with h2 | ⟨e, he1, he2, he3⟩
      · exact Or.inl h2
      · exact Or.inr ⟨e, by rw [he1]; exact List.mem_cons_self _ _, he2, he3⟩
    · exact Or.inr ⟨e, List.mem_cons_of_mem ev he1, he2, he3⟩

theorem runTU_Defs_mem {evs : List MatchEvent} {g : FuncDecl}
    (h : g ∈ (runTU evs).Defs) :
    ∃ e, MatchEvent.fnDecl e ∈ evs ∧ g = resolveFn e ∧ claimExemptb e = false := by
  rcases foldl_runEvent_Defs_mem h with h1 | h1
  · simp at h1
  · exact h1

/-! Commutation of per-key TU effects (for the merge-order theorems). -/

theorem applyDef_applyUsesOpt_comm (cwd : String) (v : Option DefInfo)
    (F : FuncDecl) (n : Nat) :
    applyDef cwd (applyUsesOpt v n) F = applyUsesOpt (applyDef cwd v F) n := by
  by_cases hn : n = 0
  · subst hn
    simp [applyUsesOpt]
  · cases v with
    | none => simp [applyDef, applyUsesOpt, defInfoFor, usesOf, hn]
    | some w => simp [applyDef, applyUsesOpt, defInfoFor, usesOf, hn]

theorem applyDefsOpt_applyUsesOpt_comm (cwd : String) (v : Option DefInfo)
    (fs : List FuncDecl) (n : Nat) :
    applyDefsOpt cwd (applyUsesOpt v n) fs = applyUsesOpt (applyDefsOpt cwd v fs) n := by
  induction fs generalizing v with
  | nil => rfl
  | cons F fs ih =>
    show applyDefsOpt cwd (applyDef cwd (applyUsesOpt v n) F) fs = _
    rw [applyDef_applyUsesOpt_comm, ih]
    rfl

theorem applyTU_comm_of_disjoint (cwd : String) (v : Option DefInfo)
    (fsx : List FuncDecl) (nx : Nat) (fsy : List FuncDecl) (ny : Nat)
    (h : fsx = [] ∨ fsy = []) :
    applyTU cwd (applyTU cwd v fsx nx) fsy ny =
      applyTU cwd (applyTU cwd v fsy ny) fsx nx := by
  rcases h with h | h
  · subst h
    show applyUsesOpt (applyDefsOpt cwd (applyUsesOpt v nx) fsy) ny =
      applyUsesOpt (applyUsesOpt (applyDefsOpt cwd v fsy) ny) nx
    rw [applyDefsOpt_applyUsesOpt_comm, applyUsesOpt_add, applyUsesOpt_add,
      Nat.add_comm]
  · subst h
    show applyUsesOpt (applyUsesOpt (applyDefsOpt cwd v fsx) nx) ny =
      applyUsesOpt (applyDefsOpt cwd (applyUsesOpt v ny) fsx) nx
    rw [applyDefsOpt_applyUsesOpt_comm, applyUsesOpt_add, applyUsesOpt_add,
      Nat.add_comm]

theorem program_perm (cwd : String) {tus1 tus2 : List TUState}
    (hp : tus1.Perm tus2)
    (hd : ∀ u, ∀ x ∈ tus1, ∀ y ∈ tus1,
      defsAtU x u ≠ [] → defsAtU y u ≠ [] → x = y) :
    program cwd tus1 = program cwd tus2 := by
  apply table_ext (program_sorted cwd tus1) (program_sorted cwd tus2)
  intro u
  rw [lookupMap_program, lookupMap_program]
  refine hp.foldl_eq' ?_ none
  intro x hx y hy v
  by_cases hxy : x = y
  · subst hxy
    rfl
  · have hde : defsAtU x u = [] ∨ defsAtU y u = [] := by
      by_contra hc
      push_neg at hc
      exact hxy (hd u x hx y hy hc.1 hc.2)
    exact applyTU_comm_of_disjoint cwd v (defsAtU x u) (usesCountAt x u)
      (defsAtU y u) (usesCountAt y u) hde

/-! Helpers shared by the claim theorems. -/

theorem applyUsesOpt_zero (v : Option DefInfo) : applyUsesOpt v 0 = v := by
  simp [applyUsesOpt]

theorem defsAtU_eq_nil_of_nodefs {tu : TUState} {u : String}
    (h : ∀ g ∈ tu.Defs, ¬ g.usr = some u) : defsAtU tu u = [] := by
  unfold defsAtU
  apply List.filter_eq_nil_iff.mpr
  intro g hg
  have hmem : g ∈ tu.Defs := (mem_unusedDefs.mp hg).1
  simp [h g hmem]

theorem usesCountAt_eq_zero_of_nouses {tu : TUState} {u : String}
    (h : ∀ g ∈ tu.Uses, ¬ g.usr = some u) : usesCountAt tu u = 0 := by
  unfold usesCountAt
  rw [List.length_eq_zero]
  apply List.filter_eq_nil_iff.mpr
  intro g hg
  have hmem : g ∈ tu.Uses := (mem_externalUses.mp hg).1
  simp [h g hmem]

theorem defsAtU_ne_nil_usr {tu : TUState} {u : String}
    (h : defsAtU tu u ≠ []) : ∃ g ∈ unusedDefs tu, g.usr = some u := by
  rcases List.exists_mem_of_ne_nil _ h with ⟨g, hg⟩
  rcases mem_defsAtU.mp hg with ⟨h1, h2⟩
  exact ⟨g, h1, h2⟩

theorem unused_symbol_lookup {cwd u : String} {pre post : List TUState}
    {A : TUState} {f : FuncDecl}
    (hf : f ∈ A.Defs) (hu : f.usr = some u)
    (honly : ∀ g ∈ A.Defs, g.usr = some u → g = f)
    (hnodefs : ∀ tu ∈ pre ++ post, ∀ g ∈ tu.Defs, ¬ g.usr = some u)
    (hnouses : ∀ tu ∈ pre ++ A :: post, ∀ g ∈ tu.Uses,
      g.declId ≠ f.declId ∧ ¬ g.usr = some u) :
    lookupMap u (program cwd (pre ++ A :: post)) = some (defInfoFor cwd f 0) := by
  have hAmem : A ∈ pre ++ A :: post :=
    List.mem_append.mpr (Or.inr (List.mem_cons_self A post))
  have hfin : f ∈ unusedDefs A := by
    apply mem_unusedDefs.mpr
    refine ⟨hf, ?_⟩
    rw [List.any_eq_false]
    intro g hg
    simp only [beq_iff_eq]
    exact (hnouses A hAmem g hg).1
  have hpre : ∀ tu ∈ pre, defsAtU tu u = [] ∧ usesCountAt tu u = 0 := by
    intro tu htu
    refine ⟨defsAtU_eq_nil_of_nodefs
      (hnodefs tu (List.mem_append.mpr (Or.inl htu))), ?_⟩
    exact usesCountAt_eq_zero_of_nouses
      (fun g hg => (hnouses tu (List.mem_append.mpr (Or.inl htu)) g hg).2)
  have hpost : ∀ tu ∈ post, defsAtU tu u = [] ∧ usesCountAt tu u = 0 := by
    intro tu htu
    have hm1 : tu ∈ pre ++ post := List.mem_append.mpr (Or.inr htu)
    have hm2 : tu ∈ pre ++ A :: post :=
      List.mem_append.mpr (Or.inr (List.mem_cons_of_mem A htu))
    refine ⟨defsAtU_eq_nil_of_nodefs (hnodefs tu hm1), ?_⟩
    exact usesCountAt_eq_zero_of_nouses (fun g hg => (hnouses tu hm2 g hg).2)
  have hAcount : usesCountAt A u = 0 :=
    usesCountAt_eq_zero_of_nouses (fun g hg => (hnouses A hAmem g hg).2)
  have hAdefs_all : ∀ g ∈ defsAtU A u, g = f := by
    intro g hg
    rcases mem_defsAtU.mp hg with ⟨h1, h2⟩
    exact honly g (mem_unusedDefs.mp h1).1 h2
  have hAdefs_ne : defsAtU A u ≠ [] := by
    intro hnil
    have : f ∈ defsAtU A u := mem_defsAtU.mpr ⟨hfin, hu⟩
    rw [hnil] at this
    simp at this
  rw [lookupMap_program, List.foldl_append, List.foldl_cons]
  rw [foldl_applyTU_id hpre none]
  have hA : applyTU cwd none (defsAtU A u) (usesCountAt A u) =
      some (defInfoFor cwd f 0) := by
    rw [hAcount]
    unfold applyTU
    rw [applyUsesOpt_zero]
    rw [applyDefsOpt_const hAdefs_all hAdefs_ne none]
    rfl
  rw [hA]
  exact foldl_applyTU_id hpost (some (defInfoFor cwd f 0))

/-- C1: a function defined (with a body, surviving the exemption filter,
USR-resolvable) in exactly one TU and referenced nowhere produces exactly
one finding, at its definition site, whatever the number of TUs. -/
theorem C1_single_unused_def_reported_once
    (cwd u : String) (pre post : List TUState) (A : TUState) (f : FuncDecl)
    (hf : f ∈ A.Defs) (hu : f.usr = some u)
    (honly : ∀ g ∈ A.Defs, g.usr = some u → g = f)
    (hnodefs : ∀ tu ∈ pre ++ post, ∀ g ∈ tu.Defs, ¬ g.usr = some u)
    (hnouses : ∀ tu ∈ pre ++ A :: post, ∀ g ∈ tu.Uses,
      g.declId ≠ f.declId ∧ ¬ g.usr = some u) :
    (findings (program cwd (pre ++ A :: post))).filter (fun kv => kv.1 == u) =
      [(u, ⟨some f, 0, f.name, f.filename, f.line, getDeclarations cwd f⟩)] := by
  rw [filter_findings_key (program_sorted cwd (pre ++ A :: post))]
  rw [unused_symbol_lookup hf hu honly hnodefs hnouses]
  rfl

/-- C1 witness: a one-TU program defining `fC1` and using nothing. -/
theorem C1_single_unused_def_reported_once_witness :
    (findings (program ("/cwd") ([] ++ tuC1 :: []))).filter
        (fun kv => kv.1 == ("c:@F@f1#")) =
      [(("c:@F@f1#"),
        ⟨some fC1, 0, fC1.name, fC1.filename, fC1.line,
          getDeclarations ("/cwd") fC1⟩)] :=
  C1_single_unused_def_reported_once ("/cwd") ("c:@F@f1#") [] [] tuC1 fC1
    (by decide) (by decide) (by decide) (by decide) (by decide)

/-- C2: a use of a symbol in a TU that does not define it makes the
aggregated use count positive, so no finding is produced for that
symbol. -/
theorem C2_external_use_suppresses_finding
    (cwd u : String) (tus : List TUState) (B : TUState) (g : FuncDecl)
    (hB : B ∈ tus) (hg : g ∈ B.Uses) (hu : g.usr = some u)
    (hnotB : ∀ d ∈ B.Defs, d.declId ≠ g.declId) :
    (findings (program cwd tus)).filter (fun kv => kv.1 == u) = [] := by
  have hext : g ∈ externalUses B := by
    apply mem_externalUses.mpr
    refine ⟨hg, ?_⟩
    rw [List.any_eq_false]
    intro d hd
    simp only [beq_iff_eq]
    have hdm : d ∈ B.Defs := List.mem_of_mem_filter hd
    exact hnotB d hdm
  have hcount : 1 ≤ usesCountAt B u := by
    unfold usesCountAt
    have : g ∈ (externalUses B).filter (fun g => g.usr == some u) := by
      apply List.mem_filter.mpr
      exact ⟨hext, by simp [hu]⟩
    exact List.length_pos.mpr (List.ne_nil_of_mem this)
  have hsum : 1 ≤ usesOf (lookupMap u (program cwd tus)) := by
    rw [usesOf_program]
    calc 1 ≤ usesCountAt B u := hcount
      _ ≤ (tus.map (fun tu => usesCountAt tu u)).sum := by
          apply List.single_le_sum (fun x _ => Nat.zero_le x)
          exact List.mem_map.mpr ⟨B, hB, rfl⟩
  rw [filter_findings_key (program_sorted cwd tus)]
  cases hl : lookupMap u (program cwd tus) with
  | none => rfl
  | some v =>
    rw [hl] at hsum
    have hv : v.Uses ≠ 0 := by
      simp only [usesOf] at hsum
      omega
    simp only [Option.elim]
    rw [if_neg]
    simp [hv]

/-- C2 witness: `fC2` defined in TU A, used only from TU B. -/
theorem C2_external_use_suppresses_finding_witness :
    (findings (program ("/cwd") [tuC2a, tuC2b])).filter
        (fun kv => kv.1 == ("c:@F@f2#")) = [] :=
  C2_external_use_suppresses_finding ("/cwd") ("c:@F@f2#") [tuC2a, tuC2b]
    tuC2b fC2b (by decide) (by decide) (by decide) (by decide)

/-- C3: `UnusedDefs` is `Defs − Uses` with weak definitions still present
(a same-TU use absorbs a weak definition's candidacy), the weak removal
happens before `ExternalUses = Uses − Defs`, so that same-TU use of the
weak definition still surfaces in `ExternalUses`. -/
theorem C3_weak_removal_between_the_two_differences
    (tu : TUState) (f g : FuncDecl)
    (hf : f ∈ tu.Defs) (hallweak : ∀ d ∈ tu.Defs, d.declId = g.declId → d.isWeak = true)
    (hg : g ∈ tu.Uses) (hid : g.declId = f.declId) :
    unusedDefs tu = setDifference tu.Defs tu.Uses ∧
    externalUses tu = setDifference tu.Uses (defsAfterWeakRemoval tu) ∧
    f ∉ unusedDefs tu ∧ g ∈ externalUses tu := by
  refine ⟨rfl, rfl, ?_, ?_⟩
  · intro hmem
    rcases mem_unusedDefs.mp hmem with ⟨h1, h2⟩
    rw [List.any_eq_false] at h2
    have := h2 g hg
    simp [hid] at this
  · apply mem_externalUses.mpr
    refine ⟨hg, ?_⟩
    rw [List.any_eq_false]
    intro d hd
    simp only [beq_iff_eq]
    intro hde
    have hd' : d ∈ tu.Defs.filter (fun F => !F.isWeak) := hd
    obtain ⟨hdm, hnw⟩ := List.mem_filter.mp hd'
    have hw := hallweak d hdm hde
    rw [hw] at hnw
    simp at hnw

/-- C3 witness: a TU that defines the weak `fC3` and uses it. -/
theorem C3_weak_removal_between_the_two_differences_witness :
    unusedDefs tuC3 = setDifference tuC3.Defs tuC3.Uses ∧
    externalUses tuC3 = setDifference tuC3.Uses (defsAfterWeakRemoval tuC3) ∧
    fC3 ∉ unusedDefs tuC3 ∧ fC3 ∈ externalUses tuC3 :=
  C3_weak_removal_between_the_two_differences tuC3 fC3 fC3
    (by decide) (by decide) (by decide) (by decide)

/-- C10: a weak definition with a body and no same-TU use is still entered
into the global table as an unused candidate (weak removal only shields
`ExternalUses`), and with no use anywhere it is reported unused. -/
theorem C10_weak_unused_def_reported
    (cwd u : String) (pre post : List TUState) (A : TUState) (f : FuncDecl)
    (hf : f ∈ A.Defs) (hw : f.isWeak = true) (hu : f.usr = some u)
    (honly : ∀ g ∈ A.Defs, g.usr = some u → g = f)
    (hnodefs : ∀ tu ∈ pre ++ post, ∀ g ∈ tu.Defs, ¬ g.usr = some u)
    (hnouses : ∀ tu ∈ pre ++ A :: post, ∀ g ∈ tu.Uses,
      g.declId ≠ f.declId ∧ ¬ g.usr = some u) :
    f ∈ unusedDefs A ∧
    (findings (program cwd (pre ++ A :: post))).filter (fun kv => kv.1 == u) =
      [(u, ⟨some f, 0, f.name, f.filename, f.line, getDeclarations cwd f⟩)] := by
  have hAmem : A ∈ pre ++ A :: post :=
    List.mem_append.mpr (Or.inr (List.mem_cons_self A post))
  constructor
  · apply mem_unusedDefs.mpr
    refine ⟨hf, ?_⟩
    rw [List.any_eq_false]
    intro g hg
    simp only [beq_iff_eq]
    exact (hnouses A hAmem g hg).1
  · rw [filter_findings_key (program_sorted cwd (pre ++ A :: post))]
    rw [unused_symbol_lookup hf hu honly hnodefs hnouses]
    rfl

/-- C10 witness: the weak `fC10`, unused anywhere, is reported. -/
theorem C10_weak_unused_def_reported_witness :
    fC10 ∈ unusedDefs tuC10 ∧
    (findings (program ("/cwd") ([] ++ tuC10 :: []))).filter
        (fun kv => kv.1 == ("c:@F@w#")) =
      [(("c:@F@w#"),
        ⟨some fC10, 0, fC10.name, fC10.filename, fC10.line,
          getDeclarations ("/cwd") fC10⟩)] :=
  C10_weak_unused_def_reported ("/cwd") ("c:@F@w#") [] [] tuC10 fC10
    (by decide) (by decide) (by decide) (by decide) (by decide) (by decide)

theorem insertDecl_idem (F : FuncDecl) (s : List FuncDecl) :
    insertDecl F (insertDecl F s) = insertDecl F s := by
  by_cases hc : (s.any (fun g => g.declId == F.declId)) = true
  · unfold insertDecl
    rw [if_pos hc, if_pos hc]
  · have h1 : insertDecl F s = s ++ [F] := by
      unfold insertDecl
      rw [if_neg hc]
    rw [h1]
    unfold insertDecl
    rw [if_pos]
    rw [List.any_append]
    simp

/-- C4: an overriding non-pure virtual method, a destructor, the entry
point, and a bodyless declaration never enter `Defs` (the `run` filter
drops them), hence no finding is ever produced for such a symbol even
with zero references. -/
theorem C4_exempt_decls_never_reported :
    (∀ st e, claimExemptb e = true → (runFnDecl st e).Defs = st.Defs) ∧
    (∀ cwd u (evss : List (List MatchEvent)),
      (∀ evs ∈ evss, ∀ e, MatchEvent.fnDecl e ∈ evs →
        (resolveFn e).usr = some u → claimExemptb e = true) →
      (findings (program cwd (evss.map runTU))).filter (fun kv => kv.1 == u) = []) := by
  constructor
  · intro st e h
    exact runFnDecl_Defs_exempt st e h
  · intro cwd u evss hex
    have hnodefs : ∀ tu ∈ evss.map runTU, defsAtU tu u = [] := by
      intro tu htu
      rcases List.mem_map.mp htu with ⟨evs, hevs, he⟩
      subst he
      apply defsAtU_eq_nil_of_nodefs
      intro g hg hgu
      rcases runTU_Defs_mem hg with ⟨e, he1, he2, he3⟩
      rw [he2] at hgu
      have hcontra := hex evs hevs e he1 hgu
      rw [hcontra] at he3
      exact absurd he3 (by simp)
    rw [filter_findings_key (program_sorted cwd (evss.map runTU))]
    cases hl : lookupMap u (program cwd (evss.map runTU)) with
    | none => rfl
    | some v =>
      have hfold := lookupMap_program cwd u (evss.map runTU)
      rw [hl] at hfold
      have hdn : v.Definition = none :=
        foldl_applyTU_defn_none hnodefs
          (fun w hw => Option.noConfusion hw) v hfold.symm
      simp [Option.elim, hdn]

/-- C4 witness: a destructor definition event inserts nothing and its
symbol is never reported. -/
theorem C4_exempt_decls_never_reported_witness :
    (runFnDecl ⟨[], []⟩ eC4).Defs = [] ∧
    (findings (program ("/cwd") ([[MatchEvent.fnDecl eC4]].map runTU))).filter
        (fun kv => kv.1 == ("c:@S@T@F@~T#")) = [] := by
  constructor
  · exact C4_exempt_decls_never_reported.1 ⟨[], []⟩ eC4 (by decide)
  · apply C4_exempt_decls_never_reported.2
    intro evs hevs e he hu
    simp only [List.mem_singleton] at hevs
    subst hevs
    simp only [List.mem_singleton] at he
    injection he with he'
    subst he'
    decide

/-- C5 counterexample: two TU results that (incorrectly) both carry an
unused-candidate definition for the same USR, at different source
locations.  Merging them in the two orders prints different definition
sites, so the final reports differ. -/
theorem C5_counterexample_order_dependent_metadata :
    List.Perm [tuC5x, tuC5y] [tuC5y, tuC5x] ∧
    reportLines (program ("/cwd") [tuC5x, tuC5y]) ≠
      reportLines (program ("/cwd") [tuC5y, tuC5x]) :=
  ⟨by decide, by decide⟩

/-- C5 (amended): when no canonical id appears among the unused
candidates of two different TU results, merging the TU results in any
permutation of order yields an identical table and an identical report. -/
theorem C5_amended_merge_order_irrelevant (cwd : String)
    (tus1 tus2 : List TUState) (hp : tus1.Perm tus2)
    (hd : ∀ x ∈ tus1, ∀ y ∈ tus1, ∀ gx ∈ unusedDefs x, ∀ gy ∈ unusedDefs y,
      gx.usr = gy.usr → gx.usr ≠ none → x = y) :
    program cwd tus1 = program cwd tus2 ∧
    reportLines (program cwd tus1) = reportLines (program cwd tus2) := by
  have hprog : program cwd tus1 = program cwd tus2 := by
    apply program_perm cwd hp
    intro u x hx y hy hdx hdy
    rcases defsAtU_ne_nil_usr hdx with ⟨gx, hgx1, hgx2⟩
    rcases defsAtU_ne_nil_usr hdy with ⟨gy, hgy1, hgy2⟩
    refine hd x hx y hy gx hgx1 gy hgy1 (hgx2.trans hgy2.symm) ?_
    rw [hgx2]
    simp
  exact ⟨hprog, by rw [hprog]⟩

/-- C5 witness: two TUs with distinct unused symbols merge to the same
report in either order. -/
theorem C5_amended_merge_order_irrelevant_witness :
    program ("/cwd") [tuC5a, tuC5b] = program ("/cwd") [tuC5b, tuC5a] ∧
    reportLines (program ("/cwd") [tuC5a, tuC5b]) =
      reportLines (program ("/cwd") [tuC5b, tuC5a]) :=
  C5_amended_merge_order_irrelevant ("/cwd") [tuC5a, tuC5b] [tuC5b, tuC5a]
    (by decide) (by decide)

/-- C6 counterexample: the same function referenced twice in one TU is
deduplicated by the `Uses` set, so the merged use count is 1, not 2: a
repeated same-TU use does not accumulate. -/
theorem C6_counterexample_same_tu_uses_deduplicated :
    runTU [MatchEvent.declRef dC6, MatchEvent.declRef dC6] =
      ⟨[], [fC6]⟩ ∧
    lookupMap ("c:@F@g#")
      (program ("/cwd")
        [runTU [MatchEvent.declRef dC6, MatchEvent.declRef dC6]]) =
      some ⟨none, 1, "", "", 0, []⟩ ∧
    (1 : Nat) ≠ 2 :=
  ⟨by decide, by decide, by decide⟩

/-- C6 (amended): a repeated same-TU use of the same canonical decl is
absorbed by the `Uses` set (`handleUse` is idempotent); each entry of a
TU's `ExternalUses` increments the record's use count by exactly 1
(creating it with count 1), so the final use count of a symbol is the sum
over TUs of that TU's external-use entries for it. -/
theorem C6_amended_use_count_accumulation :
    (∀ st d, handleUse (handleUse st d) d = handleUse st d) ∧
    (∀ t F u, F.usr = some u → TableSorted t →
      lookupMap u (recordUse t F) = applyUsesOpt (lookupMap u t) 1) ∧
    (∀ cwd u tus, usesOf (lookupMap u (program cwd tus)) =
      (tus.map (fun tu => usesCountAt tu u)).sum) := by
  refine ⟨?_, ?_, ?_⟩
  · intro st d
    by_cases h1 : d.isFunctionDecl = true
    · by_cases h2 : d.decl.inSystemHeader = true
      · simp [handleUse, h1, h2]
      · simp [handleUse, h1, h2, insertDecl_idem]
    · simp [handleUse, h1]
  · intro t F u hu hs
    rw [lookupMap_recordUse hs]
    rw [hu]
    simp
  · intro cwd u tus
    exact usesOf_program cwd u tus

/-- C7: a definition observation for an already-present record replaces
only the definition metadata (definition pointer, name, file, line,
declaration list; the single definition slot means at most one site is
kept, latest writer winning) and leaves the use count and every other key
untouched. -/
theorem C7_definition_metadata_overwrite (cwd u : String)
    (t : List (String × DefInfo)) (F : FuncDecl) (v : DefInfo)
    (hs : TableSorted t) (hu : F.usr = some u) (hv : lookupMap u t = some v) :
    lookupMap u (recordDef cwd t F) =
      some ⟨some F, v.Uses, F.name, F.filename, F.line, getDeclarations cwd F⟩ ∧
    (∀ u', ¬ u' = u → lookupMap u' (recordDef cwd t F) = lookupMap u' t) := by
  constructor
  · rw [lookupMap_recordDef hs, hu]
    simp only [beq_self_eq_true, if_true]
    rw [hv]
    rfl
  · intro u' hne
    rw [lookupMap_recordDef hs, hu]
    have hb : (some u == some u') = false := by
      simp
      exact fun he => hne he.symm
    rw [hb]
    simp

/-- C7 witness: a use-only record for the symbol exists with count 2; the
definition write fills the metadata and keeps the count. -/
theorem C7_definition_metadata_overwrite_witness :
    lookupMap ("c:@F@h#") (recordDef ("/cwd") tC7 fC7) =
      some ⟨some fC7, 2, fC7.name, fC7.filename, fC7.line,
        getDeclarations ("/cwd") fC7⟩ ∧
    lookupMap ("zzz") (recordDef ("/cwd") tC7 fC7) = lookupMap ("zzz") tC7 := by
  have h := C7_definition_metadata_overwrite ("/cwd") ("c:@F@h#") tC7 fC7
    ⟨none, 2, "", "", 0, []⟩ (List.pairwise_singleton _ _) (by decide) (by decide)
  exact ⟨h.1, h.2 ("zzz") (by decide)⟩

/-- C8 counterexample: the warning line prints the filename exactly as the
source manager reported it — here the relative `rel.cpp` — while the
declaration note is absolutized; so not every printed path is absolute. -/
theorem C8_counterexample_relative_warning_path :
    reportLines (program ("/cwd") [tuC8]) =
      ["rel.cpp:3: warning: Function \x27r\x27 is unused",
       "/cwd/r.h:1: note: declared here"] ∧
    isAbsolutePath ("rel.cpp") = false :=
  ⟨by decide, by decide⟩

/-- C8 (amended): every finding is exactly one warning line followed by
one note line per known non-defining declaration, in declaration-list
order; the note paths are absolute (given an absolute working directory),
while the warning line's path is the filename as recorded, which need not
be absolute. -/
theorem C8_amended_finding_block_format :
    (∀ t, reportLines t =
      ((findings t).map
        (fun kv => warningLine kv.2 :: kv.2.Declarations.map noteLine)).flatten) ∧
    (∀ cwd F, isAbsolutePath cwd = true →
      ∀ d ∈ getDeclarations cwd F, isAbsolutePath d.Filename = true) :=
  ⟨reportLines_eq_findings, fun _cwd F hc => getDeclarations_absolute F hc⟩

/-- C8 witness: the block shape and the absolutized note paths on the
concrete fixture. -/
theorem C8_amended_finding_block_format_witness :
    reportLines (program ("/cwd") [tuC8]) =
      ((findings (program ("/cwd") [tuC8])).map
        (fun kv => warningLine kv.2 :: kv.2.Declarations.map noteLine)).flatten ∧
    (getDeclarations ("/cwd") fC8).all
      (fun d => isAbsolutePath d.Filename) = true := by
  constructor
  · exact C8_amended_finding_block_format.1 (program ("/cwd") [tuC8])
  · rw [List.all_eq_true]
    intro d hd
    exact C8_amended_finding_block_format.2 ("/cwd") fC8 (by decide) d hd

/-- C9: when the executor cannot be created no analysis runs and `main`
returns 1; any completed run (whatever its `execute` error flag and
however many findings, including zero) returns 0 — the two outcomes are
distinct. -/
theorem C9_exit_status_semantics :
    (∀ cwd, (xunusedMain cwd none).1 = 1 ∧ (xunusedMain cwd none).1 ≠ 0) ∧
    (∀ cwd out, (xunusedMain cwd (some out)).1 = 0) :=
  ⟨fun _cwd => ⟨rfl, by simp [xunusedMain]⟩, fun _cwd _out => rfl⟩

/-- C6 witness: idempotent double use, single-entry increment, and the
cross-TU sum, at concrete inputs. -/
theorem C6_amended_use_count_accumulation_witness :
    handleUse (handleUse ⟨[], []⟩ dC6) dC6 = handleUse ⟨[], []⟩ dC6 ∧
    lookupMap ("c:@F@g#") (recordUse [] fC6) =
      applyUsesOpt (lookupMap ("c:@F@g#") []) 1 ∧
    usesOf (lookupMap ("c:@F@g#") (program ("/cwd") [tuC2b])) =
      ([tuC2b].map (fun tu => usesCountAt tu ("c:@F@g#"))).sum :=
  ⟨C6_amended_use_count_accumulation.1 ⟨[], []⟩ dC6,
   C6_amended_use_count_accumulation.2.1 [] fC6 ("c:@F@g#") (by decide)
     List.Pairwise.nil,
   C6_amended_use_count_accumulation.2.2 ("/cwd") ("c:@F@g#") [tuC2b]⟩
